/-
Verification of the NamedTuple library (include/NamedTuple.hpp).

The development shallowly embeds the compile-time machinery of the header:
`StringLiteral` becomes a wrapper around a list of characters (the stored
`char value[NSize]` array, terminator included), `NamedType` a pairing of a
tag with a payload-type code, the two `key_index` overloads become recursive
scans over a list of descriptors, `all_unique` the seen-array marking pass,
and `NamedTuple` a record of its declaration-order descriptor list together
with the stored values (the `std::tuple` base).  Payload values are drawn
from an arbitrary linearly ordered type `V`, standing for any instantiation
of the element types at comparable types.
-/

import Mathlib

namespace Mguid

/-- Compile time string literal container (`StringLiteral<NSize>`): the
stored character array `value`, terminator included; `size` is `NSize`. -/
structure StringLiteral where
  value : List Char
deriving DecidableEq, Repr

/-- Declared size `NSize` of the literal (length of the stored array). -/
def StringLiteral.size (s : StringLiteral) : Nat := s.value.length

/-- Character loop of `StringLiteral::operator==` / the nested lambda in
`NamedType::operator==(StringLiteral)`: compares `lhs.value[i]` against
`rhs.value[i]` for `i < NSize` where `NSize` is the length of the first
list.  Reading past the end of the second list is out-of-bounds in the
source and only ever guarded by a prior size check; that branch is mapped
to `true` (the loop found no mismatch among the compared characters). -/
def eqChars : List Char → List Char → Bool
  | [], _ => true
  | x :: xs, y :: ys => x == y && eqChars xs ys
  | _ :: _, [] => true

/-- `StringLiteral::operator==(StringLiteral<MSize>)`:
`MSize == NSize && equal(*this, other)`. -/
def StringLiteral.beq (a b : StringLiteral) : Bool :=
  (b.size == a.size) && eqChars a.value b.value

/-- `StringLiteral::operator==(std::string_view)`:
`sv == std::string_view{value, size - 1}` (terminator excluded). -/
def StringLiteral.svEq (a : StringLiteral) (sv : List Char) : Bool :=
  decide (sv = a.value.take (a.size - 1))

/-- A helper type associating a `StringLiteral` tag with a payload type
(`NamedType<Tag, Unused>`).  Payload types are represented by a numeric
code, enough to express that the payload component is ignored wherever the
source ignores it. -/
structure NamedType where
  tag : StringLiteral
  unused : Nat
deriving DecidableEq, Repr

/-- `NamedType::operator==(StringLiteral<MSize>)`:
`MSize == Tag.size && equal(Tag, other)` with the loop running over
`Tag.size` characters. -/
def NamedType.eqSL (nt : NamedType) (s : StringLiteral) : Bool :=
  (s.size == nt.tag.size) && eqChars nt.tag.value s.value

/-- `NamedType::operator==(NamedType<OtherTag, OtherType>)`:
`return Tag == OtherTag;` — tags only, payload types ignored. -/
def NamedType.beq (a b : NamedType) : Bool :=
  StringLiteral.beq a.tag b.tag

/-- `key_index<NamedType Needle, NamedType... Haystack>()`: fold over the
haystack with a shared index, stopping at the first pack element for which
`Needle == Type` holds (`NamedType` against `NamedType`, i.e. tag match). -/
def key_index_nt (needle : NamedType) : List NamedType → Nat
  | [] => 0
  | t :: ts => if NamedType.beq needle t then 0 else key_index_nt needle ts + 1

/-- `key_index<StringLiteral Needle, NamedType... Haystack>()`: identical
fold, the match test `Needle == Type` resolving to the rewritten candidate
`Type == Needle`, i.e. `NamedType::operator==(StringLiteral)`. -/
def key_index_sl (needle : StringLiteral) : List NamedType → Nat
  | [] => 0
  | t :: ts => if NamedType.eqSL t needle then 0 else key_index_sl needle ts + 1

/-- `is_one_of<Key, NamedTypes...>()`: `(... || (Key == NamedTypes))`. -/
def is_one_of (key : StringLiteral) (l : List NamedType) : Bool :=
  l.any (fun t => NamedType.eqSL t key)

/-- `all_unique<NamedTypes...>()`: empty pack is unique; otherwise a `seen`
array of `sizeof...(NamedTypes)` slots starts all-false, each pack element
marks `seen[key_index<Type, NamedTypes...>()]`, and the result is true iff
every slot ended up marked. -/
def all_unique (l : List NamedType) : Bool :=
  if l.isEmpty then true
  else
    (l.foldl (fun seen t => seen.set (key_index_nt t l) true)
      (List.replicate l.length false)).all (fun b => b)

/-- Recreation of the exposition-only `synth-three-way` (the `SynthThreeWay`
lambda): native three-way comparison where available, otherwise synthesized
from `<` in both directions.  For a linearly ordered value type both
branches yield the same ordering, given here in the synthesized form. -/
def SynthThreeWay {V : Type} [LinearOrder V] (t u : V) : Ordering :=
  if t < u then Ordering.lt else if u < t then Ordering.gt else Ordering.eq

/-- A tuple whose elements can be looked up by name (`NamedTuple`): `slots`
is the declaration-order pack of `NamedTypes`, `vals` the `std::tuple` base
holding one stored value per slot.  Values are drawn from a single type `V`,
standing for any instantiation of the element types at comparable types. -/
structure NamedTuple (V : Type) where
  slots : List NamedType
  vals : List V

/-- Well-formedness of a `NamedTuple` instantiation: one stored value per
slot, and the `requires(all_unique<NamedTypes{}...>())` clause on the class
template, which rejects duplicate-named slot lists at compile time. -/
def NamedTuple.WF {V : Type} (nt : NamedTuple V) : Prop :=
  nt.vals.length = nt.slots.length ∧ all_unique nt.slots = true

/-- Forwarding constructor `NamedTuple(InitTypes&&... init_values)`: the
initializer values populate the tuple base positionally, in declaration
order. -/
def NamedTuple.construct {V : Type} (slots : List NamedType) (inits : List V) :
    NamedTuple V :=
  ⟨slots, inits⟩

/-- `NamedTuple::size()`: `sizeof...(NamedTypes)`. -/
def NamedTuple.size {V : Type} (nt : NamedTuple V) : Nat := nt.slots.length

/-- `NamedTuple::get<Tag>()`: `std::get<key_index<Tag, NamedTypes{}...>()>`
on the tuple base.  The `is_one_of` requires-clause guarantees the resolved
index is in range in the source; an out-of-range resolution (impossible in
a well-typed instantiation) surfaces as `none` here. -/
def NamedTuple.get {V : Type} (nt : NamedTuple V) (tag : StringLiteral) : Option V :=
  nt.vals[key_index_sl tag nt.slots]?

/-- Positional access on the tuple base (`std::get<Index>` via the
`std::tuple_element`/`std::tuple_size` protocol): element at index `i`. -/
def NamedTuple.getAt {V : Type} (nt : NamedTuple V) (i : Nat) : Option V :=
  nt.vals[i]?

/-- `NamedTuple::set<Tag>(value)`: assigns through
`std::get<key_index<Tag, NamedTypes{}...>()>` on the tuple base; all other
elements are untouched. -/
def NamedTuple.set {V : Type} (nt : NamedTuple V) (tag : StringLiteral) (v : V) :
    NamedTuple V :=
  ⟨nt.slots, nt.vals.set (key_index_sl tag nt.slots) v⟩

/-- `NamedTuple::operator==(const NamedTuple<OtherNamedTypes...>&)`: the
fold `((get<NamedTypes{}.tag()>() == other.get<NamedTypes{}.tag()>()) && ...)`
over this tuple's own declaration-order tags, each side resolved by name. -/
def NamedTuple.beq {V : Type} [DecidableEq V] (a b : NamedTuple V) : Bool :=
  a.slots.all (fun t => decide (a.get t.tag = b.get t.tag))

/-- Lift of `SynthThreeWay` to the `Option`-valued `get`: in the source both
operands are references produced by the constraint-guarded `get<Tag>()`, so
the `none` branches are unreachable in any well-typed instantiation. -/
def SynthThreeWayOpt {V : Type} [LinearOrder V] : Option V → Option V → Ordering
  | some t, some u => SynthThreeWay t u
  | _, _ => Ordering.eq

/-- Per-tag comparison step of `NamedTuple::operator<=>`:
`SynthThreeWay(this->get<Tag>(), other.template get<Tag>())`. -/
def NamedTuple.slotOrd {V : Type} [LinearOrder V] (a b : NamedTuple V)
    (t : NamedType) : Ordering :=
  SynthThreeWayOpt (a.get t.tag) (b.get t.tag)

/-- Short-circuit fold of `NamedTuple::operator<=>` over this tuple's own
declaration-order tags: `result` is overwritten by each per-tag comparison
and the fold stops at the first `result != 0`. -/
def NamedTuple.cmpSlots {V : Type} [LinearOrder V] (a b : NamedTuple V) :
    List NamedType → Ordering
  | [] => Ordering.eq
  | t :: ts =>
    if NamedTuple.slotOrd a b t ≠ Ordering.eq then NamedTuple.slotOrd a b t
    else NamedTuple.cmpSlots a b ts

/-- `NamedTuple::operator<=>(const NamedTuple<OtherNamedTypes...>&)`:
zero-arity tuples compare `std::strong_ordering::equal`; otherwise the
short-circuit fold above starting from `equivalent`. -/
def NamedTuple.cmp {V : Type} [LinearOrder V] (a b : NamedTuple V) : Ordering :=
  if a.slots.length = 0 then Ordering.eq
  else NamedTuple.cmpSlots a b a.slots

/-- Element-wise `std::tuple` equality (`operator==` on the tuple base):
positional comparison of corresponding elements; mismatched arity does not
instantiate in the source. -/
def tupleEq {V : Type} [DecidableEq V] : List V → List V → Bool
  | [], [] => true
  | x :: xs, y :: ys => decide (x = y) && tupleEq xs ys
  | _, _ => false

/-- Lexicographic `std::tuple` three-way comparison (`operator<=>` on the
tuple base): positional, short-circuiting at the first non-equivalent
element; mismatched arity does not instantiate in the source. -/
def tupleCmp {V : Type} [LinearOrder V] : List V → List V → Ordering
  | [], [] => Ordering.eq
  | x :: xs, y :: ys =>
    let c := SynthThreeWay x y
    if c ≠ Ordering.eq then c else tupleCmp xs ys
  | _, _ => Ordering.eq

/-- `NamedTuple::operator==(const std::tuple<OtherTypes...>&)`:
`static_cast<const Base&>(*this) == other` — purely positional. -/
def NamedTuple.beqTuple {V : Type} [DecidableEq V] (a : NamedTuple V)
    (other : List V) : Bool :=
  tupleEq a.vals other

/-- `NamedTuple::operator<=>(const std::tuple<OtherTypes...>&)`:
`static_cast<const Base&>(*this) <=> other` — purely positional. -/
def NamedTuple.cmpTuple {V : Type} [LinearOrder V] (a : NamedTuple V)
    (other : List V) : Ordering :=
  tupleCmp a.vals other

/-- Concrete tag `"k1"` (terminator included) for instantiating the
specification theorems on closed data. -/
def tagK1 : StringLiteral := ⟨['k', '1', '\x00']⟩

/-- Concrete tag `"k2"` (terminator included). -/
def tagK2 : StringLiteral := ⟨['k', '2', '\x00']⟩

/-- Concrete tag `"k3"` (terminator included). -/
def tagK3 : StringLiteral := ⟨['k', '3', '\x00']⟩

/-- Descriptor list declaring `k1, k2, k3` in that order. -/
def slotsABC : List NamedType := [⟨tagK1, 0⟩, ⟨tagK2, 0⟩, ⟨tagK3, 0⟩]

/-- The same descriptors declared in reverse order. -/
def slotsCBA : List NamedType := [⟨tagK3, 0⟩, ⟨tagK2, 0⟩, ⟨tagK1, 0⟩]

/-- Aggregate `{(k1,1),(k2,2),(k3,3)}`. -/
def exA : NamedTuple Int := ⟨slotsABC, [1, 2, 3]⟩

/-- Aggregate `{(k3,3),(k2,2),(k1,1)}` — the same name/value pairs as `exA`
declared in reverse order. -/
def exB : NamedTuple Int := ⟨slotsCBA, [3, 2, 1]⟩

/-- Aggregate `{(k3,2),(k2,2),(k1,2)}`. -/
def exC : NamedTuple Int := ⟨slotsCBA, [2, 2, 2]⟩

/- ### Basic characterisations of the tag comparisons -/

theorem eqChars_self : ∀ a : List Char, eqChars a a = true := by
  intro a
  induction a with
  | nil => rfl
  | cons x xs ih => simp [eqChars, ih]

theorem eqChars_iff_of_length {a b : List Char} (h : a.length = b.length) :
    eqChars a b = true ↔ a = b := by
  induction a generalizing b with
  | nil =>
    cases b with
    | nil => simp [eqChars]
    | cons y ys => simp at h
  | cons x xs ih =>
    cases b with
    | nil => simp at h
    | cons y ys =>
      simp only [List.length_cons, Nat.succ.injEq] at h
      simp [eqChars, ih h, Bool.and_eq_true, beq_iff_eq]

theorem StringLiteral.beq_iff_value {a b : StringLiteral} :
    StringLiteral.beq a b = true ↔ a.value = b.value := by
  unfold StringLiteral.beq StringLiteral.size
  constructor
  · intro h
    rw [Bool.and_eq_true, beq_iff_eq] at h
    exact (eqChars_iff_of_length h.1.symm).mp h.2
  · intro h
    rw [h]
    simp [eqChars_self]

theorem NamedType.eqSL_iff {nt : NamedType} {s : StringLiteral} :
    NamedType.eqSL nt s = true ↔ nt.tag.value = s.value := by
  unfold NamedType.eqSL StringLiteral.size
  constructor
  · intro h
    rw [Bool.and_eq_true, beq_iff_eq] at h
    exact (eqChars_iff_of_length h.1.symm).mp h.2
  · intro h
    rw [h]
    simp [eqChars_self]

theorem NamedType.beq_iff_tags {a b : NamedType} :
    NamedType.beq a b = true ↔ a.tag.value = b.tag.value :=
  StringLiteral.beq_iff_value

theorem NamedType.eqSL_false_of_ne {t : NamedType} {s : StringLiteral}
    (h : t.tag.value ≠ s.value) : NamedType.eqSL t s = false := by
  rw [Bool.eq_false_iff]
  intro hb
  exact h (NamedType.eqSL_iff.mp hb)

theorem NamedType.beq_false_of_ne {a b : NamedType}
    (h : a.tag.value ≠ b.tag.value) : NamedType.beq a b = false := by
  rw [Bool.eq_false_iff]
  intro hb
  exact h (NamedType.beq_iff_tags.mp hb)

/- ### The two key_index overloads as first-match searches -/

theorem key_index_nt_eq_findIdx (needle : NamedType) (l : List NamedType) :
    key_index_nt needle l = l.findIdx (fun t => NamedType.beq needle t) := by
  induction l with
  | nil => rfl
  | cons t ts ih =>
    simp only [key_index_nt, List.findIdx_cons]
    cases h : NamedType.beq needle t <;> simp [h, ih]

theorem key_index_sl_eq_findIdx (s : StringLiteral) (l : List NamedType) :
    key_index_sl s l = l.findIdx (fun t => NamedType.eqSL t s) := by
  induction l with
  | nil => rfl
  | cons t ts ih =>
    simp only [key_index_sl, List.findIdx_cons]
    cases h : NamedType.eqSL t s <;> simp [h, ih]

theorem key_index_sl_tag (t : NamedType) (l : List NamedType) :
    key_index_sl t.tag l = key_index_nt t l := by
  rw [key_index_sl_eq_findIdx, key_index_nt_eq_findIdx]
  congr 1
  funext u
  cases h1 : NamedType.eqSL u t.tag <;> cases h2 : NamedType.beq t u <;> try rfl
  · exact absurd (NamedType.eqSL_iff.mpr (NamedType.beq_iff_tags.mp h2).symm) (by simp [h1])
  · exact absurd (NamedType.beq_iff_tags.mpr (NamedType.eqSL_iff.mp h1).symm) (by simp [h2])

theorem key_index_nt_le (needle : NamedType) (l : List NamedType) :
    key_index_nt needle l ≤ l.length := by
  rw [key_index_nt_eq_findIdx]
  exact List.findIdx_le_length _

theorem key_index_sl_le (s : StringLiteral) (l : List NamedType) :
    key_index_sl s l ≤ l.length := by
  rw [key_index_sl_eq_findIdx]
  exact List.findIdx_le_length _

theorem key_index_nt_not_before {needle : NamedType} {l : List NamedType} {j : Nat}
    (hj : j < key_index_nt needle l) :
    ∀ t, l[j]? = some t → t.tag.value ≠ needle.tag.value := by
  intro t ht hv
  rw [key_index_nt_eq_findIdx] at hj
  have hjl : j < l.length := Nat.lt_of_lt_of_le hj (List.findIdx_le_length _)
  have hfalse := List.not_of_lt_findIdx hj
  rw [List.getElem?_eq_getElem hjl] at ht
  have hte : l[j] = t := by injection ht
  rw [hte] at hfalse
  exact absurd (NamedType.beq_iff_tags.mpr hv.symm) (by simp_all)

theorem key_index_sl_not_before {s : StringLiteral} {l : List NamedType} {j : Nat}
    (hj : j < key_index_sl s l) :
    ∀ t, l[j]? = some t → t.tag.value ≠ s.value := by
  intro t ht hv
  rw [key_index_sl_eq_findIdx] at hj
  have hjl : j < l.length := Nat.lt_of_lt_of_le hj (List.findIdx_le_length _)
  have hfalse := List.not_of_lt_findIdx hj
  rw [List.getElem?_eq_getElem hjl] at ht
  have hte : l[j] = t := by injection ht
  rw [hte] at hfalse
  exact absurd (NamedType.eqSL_iff.mpr hv) (by simp_all)

theorem key_index_nt_found {needle : NamedType} {l : List NamedType}
    (h : key_index_nt needle l < l.length) :
    ∃ t, l[key_index_nt needle l]? = some t ∧ t.tag.value = needle.tag.value := by
  rw [key_index_nt_eq_findIdx] at h ⊢
  refine ⟨_, List.getElem?_eq_getElem h, ?_⟩
  have := List.findIdx_of_getElem?_eq_some (List.getElem?_eq_getElem h)
  exact (NamedType.beq_iff_tags.mp (by simpa using this)).symm

theorem key_index_sl_found {s : StringLiteral} {l : List NamedType}
    (h : key_index_sl s l < l.length) :
    ∃ t, l[key_index_sl s l]? = some t ∧ t.tag.value = s.value := by
  rw [key_index_sl_eq_findIdx] at h ⊢
  refine ⟨_, List.getElem?_eq_getElem h, ?_⟩
  have := List.findIdx_of_getElem?_eq_some (List.getElem?_eq_getElem h)
  exact NamedType.eqSL_iff.mp (by simpa using this)

theorem key_index_nt_absent {needle : NamedType} {l : List NamedType}
    (h : ∀ t ∈ l, t.tag.value ≠ needle.tag.value) :
    key_index_nt needle l = l.length := by
  rw [key_index_nt_eq_findIdx]
  exact List.findIdx_eq_length_of_false
    (fun t ht => NamedType.beq_false_of_ne (fun hv => h t ht hv.symm))

theorem key_index_sl_absent {s : StringLiteral} {l : List NamedType}
    (h : ∀ t ∈ l, t.tag.value ≠ s.value) :
    key_index_sl s l = l.length := by
  rw [key_index_sl_eq_findIdx]
  exact List.findIdx_eq_length_of_false
    (fun t ht => NamedType.eqSL_false_of_ne (h t ht))

theorem key_index_sl_lt_of_present {s : StringLiteral} {l : List NamedType}
    (h : ∃ u ∈ l, u.tag.value = s.value) :
    key_index_sl s l < l.length := by
  rw [key_index_sl_eq_findIdx]
  obtain ⟨u, hu, hv⟩ := h
  exact List.findIdx_lt_length_of_exists ⟨u, hu, NamedType.eqSL_iff.mpr hv⟩

theorem key_index_nt_lt_of_mem {t : NamedType} {l : List NamedType} (h : t ∈ l) :
    key_index_nt t l < l.length := by
  rw [key_index_nt_eq_findIdx]
  exact List.findIdx_lt_length_of_exists ⟨t, h, NamedType.beq_iff_tags.mpr rfl⟩

/-- C3: both `key_index` overloads return the zero-based position of the
first haystack descriptor whose tag equals the needle's tag; when no
descriptor matches they return the haystack's length (one past the end);
on an empty haystack they return `0`. -/
theorem key_index_spec (needle : NamedType) (s : StringLiteral) (l : List NamedType) :
    key_index_nt needle ([] : List NamedType) = 0
    ∧ key_index_sl s ([] : List NamedType) = 0
    ∧ key_index_nt needle l ≤ l.length
    ∧ key_index_sl s l ≤ l.length
    ∧ (∀ j, j < key_index_nt needle l →
        ∀ t, l[j]? = some t → t.tag.value ≠ needle.tag.value)
    ∧ (key_index_nt needle l < l.length →
        ∃ t, l[key_index_nt needle l]? = some t ∧ t.tag.value = needle.tag.value)
    ∧ ((∀ t ∈ l, t.tag.value ≠ needle.tag.value) → key_index_nt needle l = l.length)
    ∧ (∀ j, j < key_index_sl s l → ∀ t, l[j]? = some t → t.tag.value ≠ s.value)
    ∧ (key_index_sl s l < l.length →
        ∃ t, l[key_index_sl s l]? = some t ∧ t.tag.value = s.value)
    ∧ ((∀ t ∈ l, t.tag.value ≠ s.value) → key_index_sl s l = l.length) :=
  ⟨rfl, rfl, key_index_nt_le needle l, key_index_sl_le s l,
    fun _ hj => key_index_nt_not_before hj,
    key_index_nt_found,
    key_index_nt_absent,
    fun _ hj => key_index_sl_not_before hj,
    key_index_sl_found,
    key_index_sl_absent⟩

/-- Closed instance of `key_index_spec`: on the haystack `slotsABC` the tag
`k2` resolves to a position holding a descriptor with tag `k2`. -/
theorem key_index_spec_witness :
    ∃ t, slotsABC[key_index_sl tagK2 slotsABC]? = some t
        ∧ t.tag.value = tagK2.value :=
  (key_index_spec (NamedType.mk tagK1 0) tagK2 slotsABC).2.2.2.2.2.2.2.2.1
    (by decide)

/- ### Correctness of the seen-array uniqueness check -/

theorem foldl_set_length (f : NamedType → Nat) (l : List NamedType) (s : List Bool) :
    (l.foldl (fun seen t => seen.set (f t) true) s).length = s.length := by
  induction l generalizing s with
  | nil => rfl
  | cons t ts ih => simp [List.foldl_cons, ih, List.length_set]

theorem foldl_set_getElem? (f : NamedType → Nat) (l : List NamedType)
    (s : List Bool) (j : Nat) :
    (l.foldl (fun seen t => seen.set (f t) true) s)[j]? =
      if (∃ t ∈ l, f t = j) ∧ j < s.length then some true else s[j]? := by
  induction l generalizing s with
  | nil => simp
  | cons t ts ih =>
    rw [List.foldl_cons, ih, List.length_set]
    by_cases hj : j < s.length
    · by_cases hts : ∃ u ∈ ts, f u = j
      · rw [if_pos ⟨hts, hj⟩, if_pos]
        obtain ⟨u, hu, hfu⟩ := hts
        exact ⟨⟨u, List.mem_cons_of_mem _ hu, hfu⟩, hj⟩
      · rw [if_neg (fun hc => hts hc.1)]
        by_cases hf : f t = j
        · rw [List.getElem?_set, if_pos hf, if_pos (by rw [hf]; exact hj), if_pos]
          exact ⟨⟨t, List.mem_cons_self t ts, hf⟩, hj⟩
        · rw [List.getElem?_set, if_neg hf, if_neg]
          rintro ⟨⟨u, hu, hfu⟩, -⟩
          rcases List.mem_cons.mp hu with rfl | hmem
          · exact hf hfu
          · exact hts ⟨u, hmem, hfu⟩
    · have hnone : s[j]? = none := List.getElem?_eq_none (Nat.le_of_not_lt hj)
      rw [if_neg (fun hc => hj hc.2), if_neg (fun hc => hj hc.2)]
      by_cases hf : f t = j
      · rw [List.getElem?_set, if_pos hf, if_neg (fun hlt => hj (hf ▸ hlt)), hnone]
      · rw [List.getElem?_set, if_neg hf]

theorem all_unique_iff_marks (l : List NamedType) :
    all_unique l = true ↔ ∀ j, j < l.length → ∃ t ∈ l, key_index_nt t l = j := by
  unfold all_unique
  by_cases hl : l.isEmpty
  · rw [if_pos hl]
    have he : l = [] := List.isEmpty_iff.mp hl
    subst he
    simp
  · rw [if_neg hl, List.all_eq_true]
    have hlen : (l.foldl (fun seen t => seen.set (key_index_nt t l) true)
        (List.replicate l.length false)).length = l.length := by
      rw [foldl_set_length, List.length_replicate]
    constructor
    · intro h j hj
      have hjf : j < (l.foldl (fun seen t => seen.set (key_index_nt t l) true)
          (List.replicate l.length false)).length := by rw [hlen]; exact hj
      have hsome := List.getElem?_eq_getElem hjf
      have htrue := h _ (List.getElem_mem hjf)
      rw [htrue] at hsome
      rw [foldl_set_getElem? (fun t => key_index_nt t l) l _ j] at hsome
      by_cases hex : (∃ t ∈ l, key_index_nt t l = j) ∧ j < (List.replicate l.length false).length
      · exact hex.1
      · rw [if_neg hex, List.getElem?_replicate, if_pos hj] at hsome
        exact absurd (Option.some.inj hsome) (by simp)
    · intro h x hx
      obtain ⟨j, hjf, hxe⟩ := List.mem_iff_getElem.mp hx
      have hjl : j < l.length := by rw [← hlen]; exact hjf
      have hsome := List.getElem?_eq_getElem hjf
      rw [foldl_set_getElem? (fun t => key_index_nt t l) l _ j,
        if_pos ⟨h j hjl, by rw [List.length_replicate]; exact hjl⟩] at hsome
      rw [hxe] at hsome
      exact (Option.some.inj hsome).symm

theorem key_index_nt_getElem_of_pairwise {l : List NamedType}
    (hp : l.Pairwise (fun a b => a.tag.value ≠ b.tag.value))
    {i : Nat} (hi : i < l.length) : key_index_nt l[i] l = i := by
  rw [key_index_nt_eq_findIdx, List.findIdx_eq hi]
  refine ⟨NamedType.beq_iff_tags.mpr rfl, ?_⟩
  intro j hji
  exact NamedType.beq_false_of_ne
    (fun hv => (List.pairwise_iff_getElem.mp hp) j i (Nat.lt_trans hji hi) hi hji hv.symm)

theorem key_index_sl_getElem_of_pairwise {l : List NamedType}
    (hp : l.Pairwise (fun a b => a.tag.value ≠ b.tag.value))
    {i : Nat} (hi : i < l.length) : key_index_sl (l[i]).tag l = i := by
  rw [key_index_sl_tag]
  exact key_index_nt_getElem_of_pairwise hp hi

theorem all_unique_iff_pairwise (l : List NamedType) :
    all_unique l = true ↔ l.Pairwise (fun a b => a.tag.value ≠ b.tag.value) := by
  rw [all_unique_iff_marks]
  constructor
  · intro h
    rw [List.pairwise_iff_getElem]
    intro i j hi hj hij
    intro hv
    obtain ⟨t, htl, hkt⟩ := h j hj
    have hfound : t.tag.value = (l[j]).tag.value := by
      obtain ⟨u, hu, huv⟩ := @key_index_nt_found t l (by rw [hkt]; exact hj)
      rw [hkt, List.getElem?_eq_getElem hj] at hu
      rw [← Option.some.inj hu] at huv
      exact huv.symm
    have hbefore := @key_index_nt_not_before t l i
      (by rw [hkt]; exact hij) l[i] (List.getElem?_eq_getElem hi)
    exact hbefore (by rw [hv]; exact hfound.symm)
  · intro hp j hj
    exact ⟨l[j], List.getElem_mem hj, key_index_nt_getElem_of_pairwise hp hj⟩

/-- C4: `all_unique` returns true iff no two descriptors in the list carry
equal tags (in particular the empty list is unique); equivalently, it
returns true exactly when marking position `key_index(d, list)` as seen for
every descriptor `d` marks every position below the arity; and the
`requires` clause of `NamedTuple` (captured by `NamedTuple.WF`) therefore
admits only pairwise-distinct slot lists. -/
theorem all_unique_spec (l : List NamedType) :
    (all_unique l = true ↔ l.Pairwise (fun a b => a.tag.value ≠ b.tag.value))
    ∧ (all_unique l = true ↔ ∀ j, j < l.length → ∃ t ∈ l, key_index_nt t l = j)
    ∧ (∀ (W : Type) (nt : NamedTuple W), NamedTuple.WF nt →
        nt.slots.Pairwise (fun a b => a.tag.value ≠ b.tag.value))
    ∧ all_unique ([] : List NamedType) = true :=
  ⟨all_unique_iff_pairwise l, all_unique_iff_marks l,
    fun _ nt h => (all_unique_iff_pairwise nt.slots).mp h.2, rfl⟩

/-- Closed instance of `all_unique_spec`: the well-formed aggregate `exA`
has pairwise-distinct slot tags. -/
theorem all_unique_spec_witness :
    exA.slots.Pairwise (fun a b => a.tag.value ≠ b.tag.value) :=
  (all_unique_spec slotsABC).2.2.1 Int exA ⟨rfl, rfl⟩

/- ### Name-based access on well-formed aggregates -/

theorem NamedTuple.get_eq_of_slot {V : Type} {nt : NamedTuple V}
    (h : NamedTuple.WF nt) {i : Nat} {t : NamedType}
    (ht : nt.slots[i]? = some t) : nt.get t.tag = nt.vals[i]? := by
  obtain ⟨hi, hte⟩ := List.getElem?_eq_some_iff.mp ht
  have hp := (all_unique_iff_pairwise nt.slots).mp h.2
  unfold NamedTuple.get
  rw [← hte, key_index_sl_getElem_of_pairwise hp hi]

theorem NamedTuple.get_some_of_present {V : Type} {nt : NamedTuple V}
    (h : NamedTuple.WF nt) {s : StringLiteral}
    (hp : ∃ u ∈ nt.slots, u.tag.value = s.value) : ∃ v, nt.get s = some v := by
  have hk := key_index_sl_lt_of_present hp
  unfold NamedTuple.get
  rw [List.getElem?_eq_getElem (by rw [h.1]; exact hk)]
  exact ⟨_, rfl⟩

/-- C5: on a well-formed aggregate built from one initializer per slot in
declaration order, name-based `get` at the tag declared at position `i`
returns the initializer supplied at position `i`; and `get` at any declared
tag immediately after `set` at that tag with `v` returns `v`. -/
theorem NamedTuple.construct_get_set_spec {V : Type} (slots : List NamedType)
    (inits : List V) (hu : all_unique slots = true)
    (hlen : inits.length = slots.length) :
    (∀ (i : Nat) (t : NamedType), slots[i]? = some t →
        (NamedTuple.construct slots inits).get t.tag = inits[i]?)
    ∧ (∀ (s : StringLiteral) (v : V), (∃ u ∈ slots, u.tag.value = s.value) →
        ((NamedTuple.construct slots inits).set s v).get s = some v) := by
  constructor
  · intro i t ht
    exact NamedTuple.get_eq_of_slot ⟨hlen, hu⟩ ht
  · intro s v hp
    have hk := key_index_sl_lt_of_present hp
    show (inits.set (key_index_sl s slots) v)[key_index_sl s slots]? = some v
    rw [List.getElem?_set_self (by rw [hlen]; exact hk)]

/-- Closed instance of `construct_get_set_spec`: on the aggregate built from
`slotsABC` and initializers `[10, 20, 30]`, `get` at the tag declared second
returns the second initializer. -/
theorem construct_get_set_spec_witness :
    (NamedTuple.construct slotsABC ([10, 20, 30] : List Int)).get
        (NamedType.mk tagK2 0).tag = ([10, 20, 30] : List Int)[1]? :=
  (NamedTuple.construct_get_set_spec slotsABC ([10, 20, 30] : List Int) rfl rfl).1 1
    (NamedType.mk tagK2 0) rfl

/-- C6: on a well-formed aggregate, positional access at index `i` returns
the same element as name-based `get` at the tag declared at position `i`;
equivalently the tag declared at position `i` resolves back to index `i`
over the aggregate's own slot list. -/
theorem NamedTuple.get_positional_spec {V : Type} (nt : NamedTuple V)
    (h : NamedTuple.WF nt) :
    ∀ (i : Nat) (t : NamedType), nt.slots[i]? = some t →
      nt.get t.tag = nt.getAt i ∧ key_index_sl t.tag nt.slots = i := by
  intro i t ht
  obtain ⟨hi, hte⟩ := List.getElem?_eq_some_iff.mp ht
  have hp := (all_unique_iff_pairwise nt.slots).mp h.2
  refine ⟨NamedTuple.get_eq_of_slot h ht, ?_⟩
  rw [← hte]
  exact key_index_sl_getElem_of_pairwise hp hi

/-- Closed instance of `get_positional_spec`: on `exA`, `get` at `k2` (the
tag declared at position `1`) agrees with positional access at index `1`. -/
theorem get_positional_spec_witness :
    exA.get (NamedType.mk tagK2 0).tag = exA.getAt 1
      ∧ key_index_sl (NamedType.mk tagK2 0).tag exA.slots = 1 :=
  NamedTuple.get_positional_spec exA ⟨rfl, rfl⟩ 1 (NamedType.mk tagK2 0) rfl

/-- C10: `set` at a declared tag of a well-formed aggregate assigns only the
slot resolved for that tag: the slot list is unchanged, the stored value at
every other position is unchanged, and `get` at every other declared tag is
unchanged. -/
theorem NamedTuple.set_frame_spec {V : Type} (nt : NamedTuple V)
    (_h : NamedTuple.WF nt) (s : StringLiteral) (v : V)
    (hp : ∃ u ∈ nt.slots, u.tag.value = s.value) :
    (nt.set s v).slots = nt.slots
    ∧ (∀ j, j ≠ key_index_sl s nt.slots → (nt.set s v).vals[j]? = nt.vals[j]?)
    ∧ (∀ t ∈ nt.slots, t.tag.value ≠ s.value →
        (nt.set s v).get t.tag = nt.get t.tag) := by
  refine ⟨rfl, ?_, ?_⟩
  · intro j hj
    exact List.getElem?_set_ne (fun he => hj he.symm)
  · intro t htm htv
    have hkt : key_index_sl t.tag nt.slots < nt.slots.length :=
      key_index_sl_lt_of_present ⟨t, htm, rfl⟩
    have hks : key_index_sl s nt.slots < nt.slots.length :=
      key_index_sl_lt_of_present hp
    have hne : key_index_sl t.tag nt.slots ≠ key_index_sl s nt.slots := by
      intro he
      obtain ⟨u1, hu1, hv1⟩ := key_index_sl_found hkt
      obtain ⟨u2, hu2, hv2⟩ := key_index_sl_found hks
      rw [he, hu2] at hu1
      cases Option.some.inj hu1
      exact htv (hv1.symm.trans hv2)
    show (nt.vals.set (key_index_sl s nt.slots) v)[key_index_sl t.tag nt.slots]?
        = nt.vals[key_index_sl t.tag nt.slots]?
    exact List.getElem?_set_ne (fun he => hne he.symm)

/-- Closed instance of `set_frame_spec`: setting `k1` on `exA` leaves the
stored value at position `1` untouched. -/
theorem set_frame_spec_witness :
    (exA.set tagK1 99).vals[1]? = exA.vals[1]? :=
  (NamedTuple.set_frame_spec exA ⟨rfl, rfl⟩ tagK1 99 (by decide)).2.1 1 (by decide)

/- ### Name-aligned equality -/

theorem NamedTuple.beq_iff_all {V : Type} [DecidableEq V] (a b : NamedTuple V) :
    NamedTuple.beq a b = true ↔ ∀ t ∈ a.slots, a.get t.tag = b.get t.tag := by
  unfold NamedTuple.beq
  rw [List.all_eq_true]
  simp

/-- C1: for aggregates of equal arity with coinciding tag sets, `operator==`
returns true iff, for every declared tag, the value stored under that tag in
the first aggregate equals the value stored under the same tag in the
second; in particular two aggregates holding identical (name, value) pairs
compare equal even when their declaration orders differ. -/
theorem NamedTuple.beq_spec {V : Type} [DecidableEq V] (a b : NamedTuple V)
    (ha : NamedTuple.WF a) (hb : NamedTuple.WF b)
    (_hlen : a.slots.length = b.slots.length)
    (_htags : ∀ t ∈ a.slots, ∃ u ∈ b.slots, u.tag.value = t.tag.value) :
    (NamedTuple.beq a b = true ↔
      ∀ t ∈ a.slots, ∃ v, a.get t.tag = some v ∧ b.get t.tag = some v)
    ∧ ((a.slots.zip a.vals).Perm (b.slots.zip b.vals) →
        NamedTuple.beq a b = true) := by
  constructor
  · rw [NamedTuple.beq_iff_all]
    constructor
    · intro h t htm
      obtain ⟨v, hv⟩ := NamedTuple.get_some_of_present ha ⟨t, htm, rfl⟩
      exact ⟨v, hv, (h t htm).symm.trans hv⟩
    · intro h t htm
      obtain ⟨v, hva, hvb⟩ := h t htm
      rw [hva, hvb]
  · intro hperm
    rw [NamedTuple.beq_iff_all]
    intro t htm
    obtain ⟨i, hi, hslot⟩ := List.mem_iff_getElem.mp htm
    have hiv : i < a.vals.length := by rw [ha.1]; exact hi
    have hz1 : (a.slots.zip a.vals)[i]? = some (t, a.vals[i]) :=
      List.getElem?_zip_eq_some.mpr
        ⟨by rw [List.getElem?_eq_getElem hi, hslot], List.getElem?_eq_getElem hiv⟩
    have hmem2 : (t, a.vals[i]) ∈ b.slots.zip b.vals :=
      hperm.mem_iff.mp (List.mem_iff_getElem?.mpr ⟨i, hz1⟩)
    obtain ⟨j, hj⟩ := List.mem_iff_getElem?.mp hmem2
    obtain ⟨hbs, hbv⟩ := List.getElem?_zip_eq_some.mp hj
    have hga : a.get t.tag = a.vals[i]? :=
      NamedTuple.get_eq_of_slot ha (by rw [List.getElem?_eq_getElem hi, hslot])
    have hgb : b.get t.tag = b.vals[j]? := NamedTuple.get_eq_of_slot hb hbs
    rw [hga, hgb, hbv, List.getElem?_eq_getElem hiv]

/-- Closed instance of `beq_spec`: `exA` and `exB` hold the same
(name, value) pairs in opposite declaration orders and compare equal. -/
theorem beq_spec_witness : NamedTuple.beq exA exB = true :=
  (NamedTuple.beq_spec exA exB ⟨rfl, rfl⟩ ⟨rfl, rfl⟩ rfl (by decide)).2 (by decide)

/- ### Name-aligned lexicographic three-way comparison -/

theorem NamedTuple.cmpSlots_eq_of_all {V : Type} [LinearOrder V] (a b : NamedTuple V)
    (l : List NamedType) (h : ∀ t ∈ l, NamedTuple.slotOrd a b t = Ordering.eq) :
    NamedTuple.cmpSlots a b l = Ordering.eq := by
  induction l with
  | nil => rfl
  | cons t ts ih =>
    simp only [NamedTuple.cmpSlots]
    rw [h t (List.mem_cons_self t ts), if_neg (fun hc => hc rfl)]
    exact ih (fun u hu => h u (List.mem_cons_of_mem t hu))

theorem NamedTuple.cmpSlots_first {V : Type} [LinearOrder V] (a b : NamedTuple V) :
    ∀ (l : List NamedType) (i : Nat),
      (∀ j, j < i → ∀ u, l[j]? = some u → NamedTuple.slotOrd a b u = Ordering.eq) →
      ∀ t, l[i]? = some t → NamedTuple.slotOrd a b t ≠ Ordering.eq →
      NamedTuple.cmpSlots a b l = NamedTuple.slotOrd a b t := by
  intro l
  induction l with
  | nil =>
    intro i hbef t ht
    simp at ht
  | cons u us ih =>
    intro i hbef t ht hne
    cases i with
    | zero =>
      rw [List.getElem?_cons_zero] at ht
      cases Option.some.inj ht
      simp only [NamedTuple.cmpSlots]
      rw [if_pos hne]
    | succ n =>
      have h0 : NamedTuple.slotOrd a b u = Ordering.eq :=
        hbef 0 (Nat.succ_pos n) u List.getElem?_cons_zero
      rw [List.getElem?_cons_succ] at ht
      simp only [NamedTuple.cmpSlots]
      rw [h0, if_neg (fun hc => hc rfl)]
      refine ih n ?_ t ht hne
      intro j hj v hv
      exact hbef (j + 1) (Nat.succ_lt_succ hj) v
        (by rw [List.getElem?_cons_succ]; exact hv)

/-- C2: for well-formed aggregates of equal arity with the same tag set, the
three-way comparison walks the left aggregate's slots in its own declaration
order; each per-tag result is a synthesized three-way comparison of the left
value against the right aggregate's value looked up by the same tag; the
first non-equivalent per-tag result is returned, `equivalent` is returned
when every per-tag result is equivalent, and zero-arity aggregates compare
equivalent. -/
theorem NamedTuple.cmp_spec {V : Type} [LinearOrder V] (a b : NamedTuple V)
    (ha : NamedTuple.WF a) (hb : NamedTuple.WF b)
    (_hlen : a.slots.length = b.slots.length)
    (htags : ∀ t ∈ a.slots, ∃ u ∈ b.slots, u.tag.value = t.tag.value) :
    (a.slots = [] → NamedTuple.cmp a b = Ordering.eq)
    ∧ (∀ t ∈ a.slots, ∃ va vb, a.get t.tag = some va ∧ b.get t.tag = some vb ∧
        NamedTuple.slotOrd a b t = SynthThreeWay va vb)
    ∧ ((∀ t ∈ a.slots, NamedTuple.slotOrd a b t = Ordering.eq) →
        NamedTuple.cmp a b = Ordering.eq)
    ∧ (∀ (i : Nat), (∀ j, j < i → ∀ u, a.slots[j]? = some u →
          NamedTuple.slotOrd a b u = Ordering.eq) →
        ∀ t, a.slots[i]? = some t → NamedTuple.slotOrd a b t ≠ Ordering.eq →
        NamedTuple.cmp a b = NamedTuple.slotOrd a b t) := by
  refine ⟨?_, ?_, ?_, ?_⟩
  · intro he
    unfold NamedTuple.cmp
    rw [if_pos (by rw [he]; rfl)]
  · intro t htm
    obtain ⟨va, hva⟩ := NamedTuple.get_some_of_present ha ⟨t, htm, rfl⟩
    obtain ⟨u, hu, huv⟩ := htags t htm
    obtain ⟨vb, hvb⟩ := NamedTuple.get_some_of_present hb ⟨u, hu, huv⟩
    refine ⟨va, vb, hva, hvb, ?_⟩
    unfold NamedTuple.slotOrd
    rw [hva, hvb]
    rfl
  · intro h
    unfold NamedTuple.cmp
    by_cases he : a.slots.length = 0
    · rw [if_pos he]
    · rw [if_neg he]
      exact NamedTuple.cmpSlots_eq_of_all a b a.slots h
  · intro i hbef t ht hne
    unfold NamedTuple.cmp
    rw [if_neg (fun hc => by
      obtain ⟨hi, -⟩ := List.getElem?_eq_some_iff.mp ht
      omega)]
    exact NamedTuple.cmpSlots_first a b a.slots i hbef t ht hne

/-- Closed instance of `cmp_spec`: comparing `exA = {(k1,1),(k2,2),(k3,3)}`
against `exC = {(k3,2),(k2,2),(k1,2)}` stops at `exA`'s first declared tag
`k1` and returns that per-tag result. -/
theorem cmp_spec_witness :
    NamedTuple.cmp exA exC = NamedTuple.slotOrd exA exC (NamedType.mk tagK1 0) :=
  (NamedTuple.cmp_spec exA exC ⟨rfl, rfl⟩ ⟨rfl, rfl⟩ rfl (by decide)).2.2.2 0
    (fun j hj _ _ => absurd hj (Nat.not_lt_zero j)) (NamedType.mk tagK1 0) rfl
    (by decide)

/- ### Positional comparison against plain tuples -/

theorem SynthThreeWay_self {V : Type} [LinearOrder V] (x : V) :
    SynthThreeWay x x = Ordering.eq := by
  unfold SynthThreeWay
  rw [if_neg (lt_irrefl x), if_neg (lt_irrefl x)]

theorem tupleEq_iff {V : Type} [DecidableEq V] :
    ∀ xs ys : List V, tupleEq xs ys = true ↔ xs = ys := by
  intro xs
  induction xs with
  | nil =>
    intro ys
    cases ys <;> simp [tupleEq]
  | cons x xs ih =>
    intro ys
    cases ys with
    | nil => simp [tupleEq]
    | cons y ys => simp [tupleEq, ih]

theorem tupleCmp_self_eq {V : Type} [LinearOrder V] :
    ∀ xs : List V, tupleCmp xs xs = Ordering.eq := by
  intro xs
  induction xs with
  | nil => rfl
  | cons x xs ih =>
    simp only [tupleCmp]
    rw [SynthThreeWay_self x, if_neg (fun hc => hc rfl)]
    exact ih

/-- C7: comparing an aggregate against a plain same-arity tuple is purely
positional on the stored values: the aggregate's tags are irrelevant to both
results, equality holds iff the stored value list coincides with the tuple
position-wise, and an aggregate and a tuple holding equal values at equal
positions compare equivalent under the three-way comparison. -/
theorem NamedTuple.tuple_comparison_spec {V : Type} [DecidableEq V] [LinearOrder V]
    (slots slots2 : List NamedType) (vals other : List V) :
    NamedTuple.beqTuple ⟨slots, vals⟩ other = NamedTuple.beqTuple ⟨slots2, vals⟩ other
    ∧ NamedTuple.cmpTuple ⟨slots, vals⟩ other = NamedTuple.cmpTuple ⟨slots2, vals⟩ other
    ∧ (NamedTuple.beqTuple ⟨slots, vals⟩ other = true ↔ vals = other)
    ∧ (vals = other → NamedTuple.cmpTuple ⟨slots, vals⟩ other = Ordering.eq) := by
  refine ⟨rfl, rfl, tupleEq_iff vals other, ?_⟩
  intro h
  subst h
  show tupleCmp vals vals = Ordering.eq
  exact tupleCmp_self_eq vals

/-- Closed instance of `tuple_comparison_spec`: an aggregate and a plain
tuple holding `[1, 2, 3]` compare equivalent, whatever the tags. -/
theorem tuple_comparison_spec_witness :
    NamedTuple.cmpTuple (NamedTuple.mk slotsABC ([1, 2, 3] : List Int)) [1, 2, 3]
      = Ordering.eq :=
  (NamedTuple.tuple_comparison_spec slotsABC slotsCBA [1, 2, 3] [1, 2, 3]).2.2.2 rfl

/- ### StringLiteral and NamedType equality semantics -/

/-- C8: `StringLiteral` equality against another literal returns false
whenever the declared sizes differ and, for equal sizes, returns true iff
all characters (terminator included) match; equality against a runtime
string view holds iff the view's content equals the literal's characters
with the trailing terminator excluded. -/
theorem StringLiteral.literal_eq_spec (a b : StringLiteral) (sv : List Char) :
    (a.size ≠ b.size → StringLiteral.beq a b = false)
    ∧ (a.size = b.size → (StringLiteral.beq a b = true ↔ a.value = b.value))
    ∧ (0 < a.size → (StringLiteral.svEq a sv = true ↔ sv = a.value.dropLast)) := by
  refine ⟨?_, ?_, ?_⟩
  · intro hne
    rw [Bool.eq_false_iff]
    intro hb
    exact hne (congrArg List.length (StringLiteral.beq_iff_value.mp hb))
  · intro _
    exact StringLiteral.beq_iff_value
  · intro _
    unfold StringLiteral.svEq
    rw [decide_eq_true_iff, List.dropLast_eq_take]
    exact Iff.rfl

/-- Closed instance of `literal_eq_spec`: the view `"k1"` matches the literal
`tagK1` exactly without its terminator. -/
theorem literal_eq_spec_witness :
    StringLiteral.svEq tagK1 ['k', '1'] = true ↔ ['k', '1'] = tagK1.value.dropLast :=
  (StringLiteral.literal_eq_spec tagK1 tagK2 ['k', '1']).2.2 (by decide)

/-- C9: `NamedType` equality depends only on the tags: two descriptors
compare equal iff their tags are equal, and changing either descriptor's
payload-type component never changes the result. -/
theorem NamedType.descriptor_eq_spec (t1 t2 : StringLiteral) (p1 p2 q1 q2 : Nat) :
    (NamedType.beq (NamedType.mk t1 p1) (NamedType.mk t2 p2) = true
      ↔ t1.value = t2.value)
    ∧ NamedType.beq (NamedType.mk t1 p1) (NamedType.mk t2 p2)
        = NamedType.beq (NamedType.mk t1 q1) (NamedType.mk t2 q2) :=
  ⟨NamedType.beq_iff_tags, rfl⟩

end Mguid
